import Mathlib

/-!
Verification of the unet-amazon-segmentation pipeline.

Shallow embedding of the parts of the repository that the checked
properties speak about:

* `src/training/training.py` — the epoch loop `train_model` (early stopping,
  best-weight snapshot/restore, per-epoch metric records) and `run_epoch`
  (average-loss computation).
* `src/data/preprocessing.py` — `tile_datasets`, `split_dataset`,
  per-band min-max scaling inside `process_sentinel`, band-file resolution in
  `process_sentinel` / `process_sentinel_fast`, and `convert_forest_to_binary`.
* `src/model/loss.py` — `DiceBCELoss`.
* `src/data/dataset.py` — `SatelliteSegmentationDataset.__getitem__`.

Real-valued tensor arithmetic is modelled over `ℚ` (exact) where the code only
uses field operations, and over `ℝ` where the code uses `exp`/`log`
(the combined loss).  Stateful loops become explicit state-passing functions;
Python exceptions become `Except`.
-/

/-! ## Training loop (`src/training/training.py`, `train_model`)

The loop is driven by one observable quantity per epoch: the validation
`GeneralizedDice` score (`valScore epoch`).  Model weights are abstracted by
the number of completed training epochs (`0` = initial weights): each training
epoch mutates the live weights, and `deepcopy(model.state_dict())` records the
current value.  Per-epoch metric records are abstracted to the validation
score (val list) and the epoch index (train list); what the claims use is
their count and order. -/

structure TrainState where
  bestDice : ℚ
  bestModelState : Option Nat
  noImprove : Nat
  liveWeights : Nat
  epochsRun : Nat
  epochValMetrics : List ℚ
  epochTrainMetrics : List Nat
  epochTimes : Nat
deriving Repr, DecidableEq

def patience : Nat := 7

def initTrainState : TrainState :=
  { bestDice := 0, bestModelState := none, noImprove := 0, liveWeights := 0,
    epochsRun := 0, epochValMetrics := [], epochTrainMetrics := [],
    epochTimes := 0 }

/-- One iteration of the `for epoch in range(epochs)` body of `train_model`
(lines 84–121 of `training.py`).  Returns the state after the iteration and
whether the `break` of the early-stopping branch fired.  Note the Python
ordering: the metric records are appended *before* the early-stopping check,
and `epoch_times.append` happens *after* it (so a breaking epoch is not
timed). -/
def trainEpoch (valScore : Nat → ℚ) (epoch : Nat) (s : TrainState) :
    TrainState × Bool :=
  let live := epoch + 1
  let v := valScore epoch
  let s := { s with liveWeights := live,
                    epochValMetrics := s.epochValMetrics ++ [v],
                    epochTrainMetrics := s.epochTrainMetrics ++ [epoch],
                    epochsRun := epoch + 1 }
  if s.bestDice < v then
    ({ s with bestDice := v, bestModelState := some live, noImprove := 0,
              epochTimes := s.epochTimes + 1 }, false)
  else if s.noImprove + 1 = patience then
    ({ s with noImprove := s.noImprove + 1 }, true)
  else
    ({ s with noImprove := s.noImprove + 1, epochTimes := s.epochTimes + 1 },
     false)

/-- The epoch loop, `fuel` epochs remaining, next epoch index `epoch`. -/
def runEpochs (valScore : Nat → ℚ) : Nat → Nat → TrainState → TrainState
  | 0, _, s => s
  | fuel + 1, epoch, s =>
    let r := trainEpoch valScore epoch s
    if r.2 then r.1 else runEpochs valScore fuel (epoch + 1) r.1

/-- `train_model` (lines 65–137): run the epoch loop over the epoch budget,
then restore the best snapshot into the live model if one was ever taken. -/
def train_model (valScore : Nat → ℚ) (epochs : Nat) : TrainState :=
  let s := runEpochs valScore epochs 0 initTrainState
  match s.bestModelState with
  | some w => { s with liveWeights := w }
  | none => s

/-! ## `run_epoch` average loss (`src/training/training.py`, lines 11–63)

Per-batch work (forward/backward, metric updates) is abstracted to the
per-batch loss value; `run_epoch`'s final statement divides the accumulated
loss by `len(loader)`, which in Python raises `ZeroDivisionError` when the
loader is empty. -/

def run_epoch (batchLosses : List ℚ) : Except String ℚ :=
  let lossTotal := batchLosses.foldl (· + ·) 0
  if batchLosses.length = 0 then
    Except.error "ZeroDivisionError"
  else
    Except.ok (lossTotal / batchLosses.length)

section TrainingLemmas

variable (valScore : Nat → ℚ)

/-- Improvement phase: starting from a state whose best score is beaten by
`valScore e`, and with `valScore` strictly increasing for the next `j + 1`
epochs, those epochs all take the improvement branch. -/
theorem runEpochs_improve_phase :
    ∀ (j : Nat) (rest e : Nat) (s : TrainState),
      s.bestDice < valScore e →
      (∀ i, i + 1 < j + 1 → valScore (e + i) < valScore (e + i + 1)) →
      ∃ vm tm et,
        runEpochs valScore (j + 1 + rest) e s =
          runEpochs valScore rest (e + (j + 1))
            { bestDice := valScore (e + j), bestModelState := some (e + j + 1),
              noImprove := 0, liveWeights := e + j + 1, epochsRun := e + j + 1,
              epochValMetrics := vm, epochTrainMetrics := tm,
              epochTimes := et } := by
  intro j
  induction j with
  | zero =>
    intro rest e s h0 _
    refine ⟨s.epochValMetrics ++ [valScore e],
            s.epochTrainMetrics ++ [e], s.epochTimes + 1, ?_⟩
    show runEpochs valScore (1 + rest) e s = _
    have h1 : 1 + rest = rest + 1 := Nat.add_comm 1 rest
    rw [h1]
    simp only [runEpochs, trainEpoch, if_pos h0]
    rfl
  | succ j ih =>
    intro rest e s h0 hmono
    have hstep : runEpochs valScore (j + 1 + 1 + rest) e s =
        runEpochs valScore (j + 1 + rest) (e + 1)
          { bestDice := valScore e, bestModelState := some (e + 1),
            noImprove := 0, liveWeights := e + 1, epochsRun := e + 1,
            epochValMetrics := s.epochValMetrics ++ [valScore e],
            epochTrainMetrics := s.epochTrainMetrics ++ [e],
            epochTimes := s.epochTimes + 1 } := by
      have h1 : j + 1 + 1 + rest = (j + 1 + rest) + 1 := by omega
      rw [h1]
      simp only [runEpochs, trainEpoch, if_pos h0]
      rfl
    rw [hstep]
    have h0' : valScore e < valScore (e + 1) := by
      have := hmono 0 (by omega)
      simpa using this
    obtain ⟨vm, tm, et, hrec⟩ := ih rest (e + 1)
      { bestDice := valScore e, bestModelState := some (e + 1),
        noImprove := 0, liveWeights := e + 1, epochsRun := e + 1,
        epochValMetrics := s.epochValMetrics ++ [valScore e],
        epochTrainMetrics := s.epochTrainMetrics ++ [e],
        epochTimes := s.epochTimes + 1 }
      h0'
      (by
        intro i hi
        have h := hmono (i + 1) (by omega)
        have harr : e + (i + 1) = e + 1 + i := by omega
        rw [harr] at h
        exact h)
    refine ⟨vm, tm, et, ?_⟩
    rw [hrec]
    have h2 : e + 1 + j = e + (j + 1) := by omega
    have h3 : e + 1 + (j + 1) = e + (j + 1 + 1) := by omega
    rw [h2, h3]

/-- Plateau phase: starting from a state that needs `m' + 1` more
non-improving epochs to reach the patience threshold, and with the next
`m' + 1` scores not beating the best, the loop breaks exactly at the
`(m' + 1)`-st of them, preserving the best score and snapshot. -/
theorem runEpochs_plateau_phase :
    ∀ (m' : Nat) (rest e : Nat) (s : TrainState),
      s.noImprove + (m' + 1) = patience →
      (∀ i, i < m' + 1 → valScore (e + i) ≤ s.bestDice) →
      ∃ vm tm et,
        runEpochs valScore (m' + 1 + rest) e s =
          { bestDice := s.bestDice, bestModelState := s.bestModelState,
            noImprove := patience, liveWeights := e + (m' + 1),
            epochsRun := e + (m' + 1), epochValMetrics := vm,
            epochTrainMetrics := tm, epochTimes := et } := by
  intro m'
  induction m' with
  | zero =>
    intro rest e s hcount hplat
    refine ⟨s.epochValMetrics ++ [valScore e],
            s.epochTrainMetrics ++ [e], s.epochTimes, ?_⟩
    have hle : valScore e ≤ s.bestDice := by simpa using hplat 0 (by omega)
    have hnotlt : ¬ s.bestDice < valScore e := not_lt.mpr hle
    have h1 : 0 + 1 + rest = rest + 1 := by omega
    rw [h1]
    have hbreak : s.noImprove + 1 = patience := by omega
    simp only [runEpochs, trainEpoch, if_neg hnotlt, if_pos hbreak]
    simp [hbreak]
  | succ m' ih =>
    intro rest e s hcount hplat
    have hle : valScore e ≤ s.bestDice := by simpa using hplat 0 (by omega)
    have hnotlt : ¬ s.bestDice < valScore e := not_lt.mpr hle
    have hnobreak : ¬ s.noImprove + 1 = patience := by
      unfold patience at hcount ⊢; omega
    have hstep : runEpochs valScore (m' + 1 + 1 + rest) e s =
        runEpochs valScore (m' + 1 + rest) (e + 1)
          { bestDice := s.bestDice, bestModelState := s.bestModelState,
            noImprove := s.noImprove + 1, liveWeights := e + 1,
            epochsRun := e + 1,
            epochValMetrics := s.epochValMetrics ++ [valScore e],
            epochTrainMetrics := s.epochTrainMetrics ++ [e],
            epochTimes := s.epochTimes + 1 } := by
      have h1 : m' + 1 + 1 + rest = (m' + 1 + rest) + 1 := by omega
      rw [h1]
      simp only [runEpochs, trainEpoch, if_neg hnotlt, if_neg hnobreak]
      rfl
    rw [hstep]
    obtain ⟨vm, tm, et, hrec⟩ := ih rest (e + 1)
      { bestDice := s.bestDice, bestModelState := s.bestModelState,
        noImprove := s.noImprove + 1, liveWeights := e + 1,
        epochsRun := e + 1,
        epochValMetrics := s.epochValMetrics ++ [valScore e],
        epochTrainMetrics := s.epochTrainMetrics ++ [e],
        epochTimes := s.epochTimes + 1 }
      (by show s.noImprove + 1 + (m' + 1) = patience; omega)
      (by
        intro i hi
        have := hplat (i + 1) (by omega)
        have harr : e + (i + 1) = e + 1 + i := by omega
        rw [harr] at this
        exact this)
    refine ⟨vm, tm, et, ?_⟩
    rw [hrec]
    have h2 : e + 1 + (m' + 1) = e + (m' + 1 + 1) := by omega
    rw [h2]

/-- Once a best snapshot exists it is never discarded by later epochs. -/
theorem runEpochs_bestModelState_isSome :
    ∀ (fuel e : Nat) (s : TrainState),
      s.bestModelState.isSome →
      (runEpochs valScore fuel e s).bestModelState.isSome := by
  intro fuel
  induction fuel with
  | zero => intro e s h; exact h
  | succ fuel ih =>
    intro e s h
    show (if (trainEpoch valScore e s).2 then (trainEpoch valScore e s).1
          else runEpochs valScore fuel (e + 1) (trainEpoch valScore e s).1).bestModelState.isSome
    by_cases hc : (trainEpoch valScore e s).2
    · rw [if_pos hc]
      unfold trainEpoch
      dsimp only
      split
      · rfl
      · split
        · exact h
        · exact h
    · rw [if_neg hc]
      apply ih
      unfold trainEpoch
      dsimp only
      split
      · rfl
      · split
        · exact h
        · exact h

end TrainingLemmas

/-- A best snapshot, once taken, is never discarded: any run of at least one
epoch whose first validation score is positive ends with `train_model`
loading the snapshot into the live model. -/
theorem train_model_restores_snapshot (valScore : Nat → ℚ) (E : Nat)
    (hE : 1 ≤ E) (h0 : 0 < valScore 0) :
    ∃ w, (train_model valScore E).bestModelState = some w ∧
      (train_model valScore E).liveWeights = w := by
  have hsome : (runEpochs valScore E 0 initTrainState).bestModelState.isSome := by
    obtain ⟨E', rfl⟩ : ∃ E', E = E' + 1 := ⟨E - 1, by omega⟩
    have h0' : initTrainState.bestDice < valScore 0 := by
      simpa [initTrainState] using h0
    have hstep : runEpochs valScore (E' + 1) 0 initTrainState =
        runEpochs valScore E' 1
          { bestDice := valScore 0, bestModelState := some 1, noImprove := 0,
            liveWeights := 1, epochsRun := 1,
            epochValMetrics := [valScore 0], epochTrainMetrics := [0],
            epochTimes := 1 } := by
      simp only [runEpochs, trainEpoch, if_pos h0']
      rfl
    rw [hstep]
    apply runEpochs_bestModelState_isSome
    rfl
  obtain ⟨w, hw⟩ := Option.isSome_iff_exists.mp hsome
  exact ⟨w, by simp [train_model, hw], by simp [train_model, hw]⟩

/-- C1: if the validation GeneralizedDice score strictly improves for the
first `k ≥ 1` epochs and then fails to strictly improve for 7 consecutive
epochs (within the epoch budget), `train_model` stops right after the 7th
non-improving epoch: exactly `k + 7` epochs run and no further epoch starts.
On exit the live model's weights are the deep-copied snapshot taken at the
best (`k`-th) epoch, not the last epoch's weights; and on every loop exit of
at least one epoch with a positive first score — early stop or budget
exhaustion alike — the live weights equal the recorded best snapshot. -/
theorem train_model_early_stop_restores_best (valScore : Nat → ℚ)
    (k epochs E : Nat) (hk : 1 ≤ k) (hbudget : k + 7 ≤ epochs)
    (h0 : 0 < valScore 0)
    (hinc : ∀ i, i + 1 < k → valScore i < valScore (i + 1))
    (hplat : ∀ i, i < 7 → valScore (k + i) ≤ valScore (k - 1))
    (hE : 1 ≤ E) :
    (train_model valScore epochs).epochsRun = k + 7 ∧
    (train_model valScore epochs).bestModelState = some k ∧
    (train_model valScore epochs).liveWeights = k ∧
    (train_model valScore epochs).liveWeights ≠ k + 7 ∧
    (∃ w, (train_model valScore E).bestModelState = some w ∧
      (train_model valScore E).liveWeights = w) := by
  obtain ⟨k', rfl⟩ : ∃ k', k = k' + 1 := ⟨k - 1, by omega⟩
  obtain ⟨rest, hrest⟩ := Nat.le.dest hbudget
  have h0' : initTrainState.bestDice < valScore 0 := by
    simpa [initTrainState] using h0
  obtain ⟨vm, tm, et, h₁⟩ := runEpochs_improve_phase valScore k' (7 + rest) 0
    initTrainState h0'
    (by intro i hi; simpa using hinc i (by omega))
  simp only [Nat.zero_add] at h₁
  obtain ⟨vm', tm', et', h₂⟩ := runEpochs_plateau_phase valScore 6 rest (k' + 1)
    { bestDice := valScore k', bestModelState := some (k' + 1),
      noImprove := 0, liveWeights := k' + 1, epochsRun := k' + 1,
      epochValMetrics := vm, epochTrainMetrics := tm, epochTimes := et }
    (by show 0 + (6 + 1) = patience; rfl)
    (by intro i hi; simpa using hplat i hi)
  have hfuel : epochs = k' + 1 + (7 + rest) := by omega
  have hloop : runEpochs valScore epochs 0 initTrainState =
      { bestDice := valScore k', bestModelState := some (k' + 1),
        noImprove := patience, liveWeights := k' + 1 + (6 + 1),
        epochsRun := k' + 1 + (6 + 1), epochValMetrics := vm',
        epochTrainMetrics := tm', epochTimes := et' } := by
    rw [hfuel, h₁]
    have h7 : 6 + 1 + rest = 7 + rest := by omega
    rw [h7] at h₂
    exact h₂
  refine ⟨?_, ?_, ?_, ?_, train_model_restores_snapshot valScore E hE h0⟩
  · simp [train_model, hloop]
  · simp [train_model, hloop]
  · simp [train_model, hloop]
  · simp [train_model, hloop]

/-- The two metric-record lists always hold exactly the epochs run so far, in
epoch order, and the loop cannot run more epochs than its fuel. -/
theorem runEpochs_metric_records (valScore : Nat → ℚ) :
    ∀ (fuel e : Nat) (s : TrainState),
      e = s.epochsRun →
      s.epochValMetrics = (List.range s.epochsRun).map valScore →
      s.epochTrainMetrics = List.range s.epochsRun →
      (runEpochs valScore fuel e s).epochValMetrics =
        (List.range (runEpochs valScore fuel e s).epochsRun).map valScore ∧
      (runEpochs valScore fuel e s).epochTrainMetrics =
        List.range (runEpochs valScore fuel e s).epochsRun ∧
      (runEpochs valScore fuel e s).epochsRun ≤ s.epochsRun + fuel := by
  intro fuel
  induction fuel with
  | zero =>
    intro e s he hv ht
    refine ⟨hv, ht, ?_⟩
    show s.epochsRun ≤ s.epochsRun + 0
    omega
  | succ fuel ih =>
    intro e s he hv ht
    have hval' : s.epochValMetrics ++ [valScore e] =
        (List.range (e + 1)).map valScore := by
      rw [List.range_succ, List.map_append, hv, he]
      rfl
    have htr' : s.epochTrainMetrics ++ [e] = List.range (e + 1) := by
      rw [List.range_succ, ht, he]
    by_cases h1 : s.bestDice < valScore e
    · have hstep : runEpochs valScore (fuel + 1) e s =
          runEpochs valScore fuel (e + 1)
            { bestDice := valScore e, bestModelState := some (e + 1),
              noImprove := 0, liveWeights := e + 1, epochsRun := e + 1,
              epochValMetrics := s.epochValMetrics ++ [valScore e],
              epochTrainMetrics := s.epochTrainMetrics ++ [e],
              epochTimes := s.epochTimes + 1 } := by
        simp only [runEpochs, trainEpoch, if_pos h1]
        rfl
      rw [hstep]
      obtain ⟨a, b, c⟩ := ih (e + 1)
        { bestDice := valScore e, bestModelState := some (e + 1),
          noImprove := 0, liveWeights := e + 1, epochsRun := e + 1,
          epochValMetrics := s.epochValMetrics ++ [valScore e],
          epochTrainMetrics := s.epochTrainMetrics ++ [e],
          epochTimes := s.epochTimes + 1 }
        rfl hval' htr'
      exact ⟨a, b, le_trans c
        (show e + 1 + fuel ≤ s.epochsRun + (fuel + 1) by omega)⟩
    · by_cases h2 : s.noImprove + 1 = patience
      · have hstep : runEpochs valScore (fuel + 1) e s =
            { bestDice := s.bestDice, bestModelState := s.bestModelState,
              noImprove := s.noImprove + 1, liveWeights := e + 1,
              epochsRun := e + 1,
              epochValMetrics := s.epochValMetrics ++ [valScore e],
              epochTrainMetrics := s.epochTrainMetrics ++ [e],
              epochTimes := s.epochTimes } := by
          simp only [runEpochs, trainEpoch, if_neg h1, if_pos h2]
          rfl
        rw [hstep]
        refine ⟨hval', htr', ?_⟩
        show e + 1 ≤ s.epochsRun + (fuel + 1)
        omega
      · have hstep : runEpochs valScore (fuel + 1) e s =
            runEpochs valScore fuel (e + 1)
              { bestDice := s.bestDice, bestModelState := s.bestModelState,
                noImprove := s.noImprove + 1, liveWeights := e + 1,
                epochsRun := e + 1,
                epochValMetrics := s.epochValMetrics ++ [valScore e],
                epochTrainMetrics := s.epochTrainMetrics ++ [e],
                epochTimes := s.epochTimes + 1 } := by
          simp only [runEpochs, trainEpoch, if_neg h1, if_neg h2]
          rfl
        rw [hstep]
        obtain ⟨a, b, c⟩ := ih (e + 1)
          { bestDice := s.bestDice, bestModelState := s.bestModelState,
            noImprove := s.noImprove + 1, liveWeights := e + 1,
            epochsRun := e + 1,
            epochValMetrics := s.epochValMetrics ++ [valScore e],
            epochTrainMetrics := s.epochTrainMetrics ++ [e],
            epochTimes := s.epochTimes + 1 }
          rfl hval' htr'
        exact ⟨a, b, le_trans c
          (show e + 1 + fuel ≤ s.epochsRun + (fuel + 1) by omega)⟩

/-- C8: the record returned by `train_model` carries the best score and the
per-epoch timings, and its two metric-record lists (train, validation) hold
exactly one entry per epoch actually run, in epoch order; the number of
epochs run never exceeds the epoch budget (it is smaller when the loop
early-stops). -/
theorem train_model_metric_records (valScore : Nat → ℚ) (epochs : Nat) :
    (train_model valScore epochs).epochValMetrics =
      (List.range ((train_model valScore epochs).epochsRun)).map valScore ∧
    (train_model valScore epochs).epochTrainMetrics =
      List.range ((train_model valScore epochs).epochsRun) ∧
    (train_model valScore epochs).epochsRun ≤ epochs := by
  obtain ⟨a, b, c⟩ :=
    runEpochs_metric_records valScore epochs 0 initTrainState rfl rfl rfl
  cases hbs : (runEpochs valScore epochs 0 initTrainState).bestModelState with
  | none =>
    refine ⟨?_, ?_, ?_⟩ <;> simp only [train_model, hbs] <;>
      first
        | exact a
        | exact b
        | (show (runEpochs valScore epochs 0 initTrainState).epochsRun ≤ epochs
           simpa [initTrainState] using c)
  | some w =>
    refine ⟨?_, ?_, ?_⟩ <;> simp only [train_model, hbs] <;>
      first
        | exact a
        | exact b
        | (show (runEpochs valScore epochs 0 initTrainState).epochsRun ≤ epochs
           simpa [initTrainState] using c)

/-- C9: `run_epoch`'s average-loss computation `loss_total / len(loader)`
raises `ZeroDivisionError` on a loader with zero batches; under the
precondition of a non-empty loader it always returns the accumulated loss
divided by the batch count, and the error branch is unreachable. -/
theorem run_epoch_empty_loader_raises :
    run_epoch [] = Except.error "ZeroDivisionError" ∧
    ∀ batchLosses : List ℚ, batchLosses ≠ [] →
      run_epoch batchLosses =
        Except.ok (batchLosses.foldl (· + ·) (0 : ℚ) /
          (batchLosses.length : ℚ)) := by
  refine ⟨rfl, ?_⟩
  intro l hl
  unfold run_epoch
  rw [if_neg (by simpa [List.length_eq_zero] using hl)]

/-- Witness for C9 at the two-batch loader `[2, 4]`. -/
theorem run_epoch_empty_loader_raises_witness :
    ([(2 : ℚ), 4] ≠ []) ∧
    run_epoch [(2 : ℚ), 4] =
      Except.ok (([(2 : ℚ), 4].foldl (· + ·) (0 : ℚ)) /
        (([(2 : ℚ), 4].length : ℕ) : ℚ)) :=
  ⟨by decide, run_epoch_empty_loader_raises.2 [(2 : ℚ), 4] (by decide)⟩

/-- Witness for C1: scores 1, 2, 3 for three epochs, then a plateau at 3. -/
theorem train_model_early_stop_restores_best_witness :
    (train_model (fun e => if e = 0 then 1 else if e = 1 then 2 else (3 : ℚ))
        60).epochsRun = 3 + 7 ∧
    (train_model (fun e => if e = 0 then 1 else if e = 1 then 2 else (3 : ℚ))
        60).liveWeights = 3 := by
  have h := train_model_early_stop_restores_best
    (fun e => if e = 0 then 1 else if e = 1 then 2 else (3 : ℚ)) 3 60 1
    (by decide) (by decide) (by decide)
    (by
      intro i hi
      have h2 : i < 2 := by omega
      interval_cases i <;> decide)
    (by
      intro i hi
      interval_cases i <;> decide)
    (by decide)
  exact ⟨h.1, h.2.2.1⟩

/-! ## Tiling (`src/data/preprocessing.py`, `tile_datasets`, lines 161–220)

A raster is abstracted by its pixel grid (width × height); the two rasters of
an Aligned Raster Pair share one grid, so one `(W, H)` models the windowed
reads of both the image and the label.  A `rasterio` read over
`Window(x_off, y_off, t, t)` returns the in-bounds intersection, an array of
shape `(min t (W - x_off), min t (H - y_off))`. -/

structure Tile where
  index : Nat
  xOff : Nat
  yOff : Nat
  width : Nat
  height : Nat
deriving Repr, DecidableEq

def tileSize : Nat := 512

/-- Shape of the array returned by reading a `t × t` window at
`(xOff, yOff)` from a `W × H` raster. -/
def windowShape (W H xOff yOff t : Nat) : Nat × Nat :=
  (min t (W - xOff), min t (H - yOff))

/-- Loop body of `tile_datasets`: read the window of grid cell
`ji = (j, i)`, skip it when either read came back short of
`tile_size × tile_size`, otherwise write the tile pair under the running
`tile_count` and increment the counter. -/
def tileStep (W H : Nat) (st : Nat × List Tile) (ji : Nat × Nat) :
    Nat × List Tile :=
  let xOff := ji.2 * tileSize
  let yOff := ji.1 * tileSize
  let shape := windowShape W H xOff yOff tileSize
  if shape.1 = tileSize ∧ shape.2 = tileSize then
    (st.1 + 1, st.2 ++ [⟨st.1, xOff, yOff, shape.1, shape.2⟩])
  else
    st

/-- `tile_datasets`: row-major double loop (`j` over `height // 512` rows
outside, `i` over `width // 512` columns inside) threading `tile_count`
from 0; returns the emitted tiles. -/
def tile_datasets (W H : Nat) : List Tile :=
  (((List.range (H / tileSize)).flatMap fun j =>
      (List.range (W / tileSize)).map fun i => (j, i)).foldl
    (tileStep W H) (0, [])).2

/-- One grid row of `tile_datasets`: when the whole row lies inside the
raster, every window read is full-size and every cell is emitted. -/
theorem foldl_tileStep_row (W H : Nat) :
    ∀ (tx j c : Nat) (acc : List Tile),
      tx * tileSize ≤ W → (j + 1) * tileSize ≤ H →
      ((List.range tx).map fun i => ((j, i) : Nat × Nat)).foldl
          (tileStep W H) (c, acc) =
        (c + tx, acc ++ (List.range tx).map fun i =>
          ⟨c + i, i * tileSize, j * tileSize, tileSize, tileSize⟩) := by
  intro tx
  induction tx with
  | zero => intro j c acc _ _; simp
  | succ tx ih =>
    intro j c acc hW hH
    have hW' : tx * tileSize ≤ W :=
      le_trans (Nat.mul_le_mul_right _ (by omega)) hW
    rw [List.range_succ, List.map_append, List.foldl_append, ih j c acc hW' hH]
    have hxfull : min tileSize (W - tx * tileSize) = tileSize := by
      have : tx * tileSize + tileSize ≤ W := by
        have := hW
        rw [Nat.succ_mul] at this
        exact this
      omega
    have hyfull : min tileSize (H - j * tileSize) = tileSize := by
      have : j * tileSize + tileSize ≤ H := by
        have := hH
        rw [Nat.succ_mul] at this
        exact this
      omega
    show tileStep W H (c + tx, _) (j, tx) = _
    unfold tileStep windowShape
    dsimp only
    rw [hxfull, hyfull, if_pos ⟨rfl, rfl⟩]
    rw [List.map_append, List.append_assoc]
    rfl

/-- The full double loop of `tile_datasets` in closed form: tiles are
numbered consecutively from 0 in row-major order, tile `n` sits at offsets
`((n % tiles_x) * 512, (n / tiles_x) * 512)`, and all tiles are full. -/
theorem foldl_tileStep_grid (W H : Nat) :
    ∀ (ty tx : Nat), tx * tileSize ≤ W → ty * tileSize ≤ H →
      ((List.range ty).flatMap fun j =>
          (List.range tx).map fun i => ((j, i) : Nat × Nat)).foldl
        (tileStep W H) (0, []) =
      (ty * tx, (List.range (ty * tx)).map fun n =>
        ⟨n, (n % tx) * tileSize, (n / tx) * tileSize, tileSize, tileSize⟩) := by
  intro ty
  induction ty with
  | zero => intro tx _ _; simp
  | succ ty ih =>
    intro tx hW hH
    have hH' : ty * tileSize ≤ H :=
      le_trans (Nat.mul_le_mul_right _ (by omega)) hH
    have hHrow : (ty + 1) * tileSize ≤ H := hH
    rw [List.range_succ, List.flatMap_append, List.foldl_append,
      ih tx hW hH']
    have hone : ([ty].flatMap fun j =>
        (List.range tx).map fun i => ((j, i) : Nat × Nat)) =
        (List.range tx).map fun i => ((ty, i) : Nat × Nat) := by
      simp
    rw [hone, foldl_tileStep_row W H tx ty (ty * tx) _ hW hHrow]
    have hcnt : ty * tx + tx = (ty + 1) * tx := by ring
    have hrange : List.range ((ty + 1) * tx) =
        List.range (ty * tx) ++ (List.range tx).map (ty * tx + ·) := by
      rw [← hcnt, List.range_add]
    rw [hrange, List.map_append, List.map_map]
    have hcell : ((List.range tx).map fun i =>
        (⟨ty * tx + i, i * tileSize, ty * tileSize, tileSize, tileSize⟩ :
          Tile)) =
        (List.range tx).map ((fun n =>
          (⟨n, (n % tx) * tileSize, (n / tx) * tileSize, tileSize,
            tileSize⟩ : Tile)) ∘ (ty * tx + ·)) := by
      apply List.map_congr_left
      intro i hi
      have hitx : i < tx := List.mem_range.mp hi
      have htxpos : 0 < tx := by omega
      simp only [Function.comp]
      have hmod : (ty * tx + i) % tx = i := by
        rw [Nat.mul_add_mod', Nat.mod_eq_of_lt hitx]
      have hdiv : (ty * tx + i) / tx = ty := by
        rw [Nat.mul_comm ty tx, Nat.mul_add_div htxpos, Nat.div_eq_of_lt hitx,
          Nat.add_zero]
      rw [hmod, hdiv]
    rw [hcell, hcnt]

/-- C2: for every aligned raster pair on a `W × H` grid and tile edge 512,
`tile_datasets` emits exactly `(W / 512) * (H / 512)` tiles — none from a
truncated edge region — each exactly `512 × 512` in both image and label,
read at offsets `(i * 512, j * 512)` in row-major order with zero-based
consecutive numbering (tile `n` is cell `i = n % (W / 512)`,
`j = n / (W / 512)`). -/
theorem tile_datasets_emits_exact_grid (W H : Nat) :
    tile_datasets W H =
      (List.range ((H / 512) * (W / 512))).map (fun n =>
        ⟨n, (n % (W / 512)) * 512, (n / (W / 512)) * 512, 512, 512⟩) ∧
    (tile_datasets W H).length = (W / 512) * (H / 512) ∧
    (∀ t ∈ tile_datasets W H, t.width = 512 ∧ t.height = 512) := by
  have hW : (W / tileSize) * tileSize ≤ W := Nat.div_mul_le_self W tileSize
  have hH : (H / tileSize) * tileSize ≤ H := Nat.div_mul_le_self H tileSize
  have hgrid := foldl_tileStep_grid W H (H / tileSize) (W / tileSize) hW hH
  have hmain : tile_datasets W H =
      (List.range ((H / 512) * (W / 512))).map (fun n =>
        ⟨n, (n % (W / 512)) * 512, (n / (W / 512)) * 512, 512, 512⟩) := by
    unfold tile_datasets
    rw [hgrid]
    rfl
  refine ⟨hmain, ?_, ?_⟩
  · rw [hmain, List.length_map, List.length_range, Nat.mul_comm]
  · intro t ht
    rw [hmain] at ht
    obtain ⟨n, _, rfl⟩ := List.mem_map.mp ht
    exact ⟨rfl, rfl⟩

/-! ## Dataset splitter (`src/data/preprocessing.py`, `split_dataset`,
lines 247–308)

The eligible corpus — filenames present in both `images/` and `labels/` —
is a list of file identifiers, given in its post-`random.shuffle` order
(`shuffle` permutes in place; the function consumes the shuffled list).
Ratio arithmetic is exact over `ℚ`; Python's `int(x)` truncates toward
zero, which on the non-negative products used here is the floor.  The two
`ValueError` guards are modelled by `none`. -/

def split_dataset (files : List ℕ) (trainRatio valRatio testRatio : ℚ) :
    Option (List ℕ × List ℕ × List ℕ) :=
  if ¬ (0 ≤ trainRatio ∧ trainRatio ≤ 1 ∧ 0 ≤ valRatio ∧ valRatio ≤ 1 ∧
        0 ≤ testRatio ∧ testRatio ≤ 1) then
    none
  else if ¬ |trainRatio + valRatio + testRatio - 1| < 1 / 1000000 then
    none
  else
    let totalFiles := files.length
    let trainSplit := (⌊(totalFiles : ℚ) * trainRatio⌋).toNat
    let valSplit := (⌊(totalFiles : ℚ) * (trainRatio + valRatio)⌋).toNat
    some (files.take trainSplit,
          (files.take valSplit).drop trainSplit,
          files.drop valSplit)

/-- C3: with per-ratio bounds and ratios summing to 1, `split_dataset`
succeeds and slices the shuffled corpus at `⌊n*train⌋` and
`⌊n*(train+val)⌋`: the three subsets concatenate back to the corpus (so
every eligible file lands in exactly one subset — no omission, no
duplication, multiplicity preserved), and their sizes are the slice
sizes. -/
theorem split_dataset_partitions (files : List ℕ)
    (trainRatio valRatio testRatio : ℚ)
    (h1 : 0 ≤ trainRatio) (h2 : trainRatio ≤ 1)
    (h3 : 0 ≤ valRatio) (h4 : valRatio ≤ 1)
    (h5 : 0 ≤ testRatio) (h6 : testRatio ≤ 1)
    (hsum : trainRatio + valRatio + testRatio = 1) :
    ∃ t v te,
      split_dataset files trainRatio valRatio testRatio = some (t, v, te) ∧
      t = files.take (⌊(files.length : ℚ) * trainRatio⌋).toNat ∧
      v = (files.take
            (⌊(files.length : ℚ) * (trainRatio + valRatio)⌋).toNat).drop
          (⌊(files.length : ℚ) * trainRatio⌋).toNat ∧
      te = files.drop (⌊(files.length : ℚ) * (trainRatio + valRatio)⌋).toNat ∧
      t ++ v ++ te = files ∧
      (∀ f, t.count f + v.count f + te.count f = files.count f) ∧
      t.length = (⌊(files.length : ℚ) * trainRatio⌋).toNat ∧
      v.length = (⌊(files.length : ℚ) * (trainRatio + valRatio)⌋).toNat -
        (⌊(files.length : ℚ) * trainRatio⌋).toNat ∧
      te.length = files.length -
        (⌊(files.length : ℚ) * (trainRatio + valRatio)⌋).toNat := by
  have hn0 : (0 : ℚ) ≤ (files.length : ℚ) := Nat.cast_nonneg _
  set n := files.length with hn
  set a := (⌊(n : ℚ) * trainRatio⌋).toNat with ha
  set b := (⌊(n : ℚ) * (trainRatio + valRatio)⌋).toNat with hb
  have hab : a ≤ b := by
    apply Int.toNat_le_toNat
    apply Int.floor_le_floor
    apply mul_le_mul_of_nonneg_left _ hn0
    linarith
  have hbn : b ≤ n := by
    have hfl : ⌊(n : ℚ) * (trainRatio + valRatio)⌋ ≤ (n : ℤ) := by
      have hle : (n : ℚ) * (trainRatio + valRatio) ≤ (n : ℚ) := by
        nlinarith
      calc ⌊(n : ℚ) * (trainRatio + valRatio)⌋ ≤ ⌊(n : ℚ)⌋ :=
            Int.floor_le_floor hle
        _ = (n : ℤ) := Int.floor_natCast n
    calc b ≤ ((n : ℤ)).toNat := Int.toNat_le_toNat hfl
      _ = n := Int.toNat_natCast n
  have hok : split_dataset files trainRatio valRatio testRatio =
      some (files.take a, (files.take b).drop a, files.drop b) := by
    unfold split_dataset
    rw [if_neg (by push_neg; exact ⟨h1, h2, h3, h4, h5, h6⟩)]
    rw [if_neg (by
      push_neg
      rw [hsum]
      norm_num)]
  have hcat : files.take a ++ ((files.take b).drop a) ++ files.drop b =
      files := by
    have h1' : files.take a = (files.take b).take a := by
      rw [List.take_take, Nat.min_eq_left hab]
    rw [h1', List.take_append_drop, List.take_append_drop]
  refine ⟨files.take a, (files.take b).drop a, files.drop b, hok, rfl, rfl,
    rfl, hcat, ?_, ?_, ?_, ?_⟩
  · intro f
    have hc := congrArg (List.count f) hcat
    simp only [List.count_append] at hc
    omega
  · rw [List.length_take, Nat.min_eq_left (le_trans hab hbn)]
  · rw [List.length_drop, List.length_take, Nat.min_eq_left hbn]
  · rw [List.length_drop]

/-- Witness for C3: ratios (0.8, 0.15, 0.05) over 100 paired tiles give
exactly 80 train, 15 validation, 5 test files and reassemble the corpus. -/
theorem split_dataset_partitions_witness :
    ∃ t v te,
      split_dataset (List.range 100) (4/5) (3/20) (1/20) = some (t, v, te) ∧
      t.length = 80 ∧ v.length = 15 ∧ te.length = 5 ∧
      t ++ v ++ te = List.range 100 := by
  obtain ⟨t, v, te, hok, _, _, _, hcat, _, hlt, hlv, hlte⟩ :=
    split_dataset_partitions (List.range 100) (4/5) (3/20) (1/20)
      (by norm_num) (by norm_num) (by norm_num) (by norm_num) (by norm_num)
      (by norm_num) (by norm_num)
  have e80 : (⌊((List.range 100).length : ℚ) * (4/5)⌋).toNat = 80 := by
    rw [List.length_range]
    norm_num
    rfl
  have e95 : (⌊((List.range 100).length : ℚ) * (4/5 + 3/20)⌋).toNat = 95 := by
    rw [List.length_range]
    norm_num
    rfl
  refine ⟨t, v, te, hok, ?_, ?_, ?_, hcat⟩
  · rw [hlt, e80]
  · rw [hlv, e80, e95]
  · rw [hlte, e95, List.length_range]

/-! ## Per-band min–max scaling (`src/data/preprocessing.py`,
`process_sentinel`, lines 58–70)

One band of the reprojected stack is a list of pixel values (floats modelled
as `ℚ`; the NaN-free data case, where `np.nanmin`/`np.nanmax` are the plain
minimum/maximum over the band's own data).  numpy's `astype(np.uint8)`
C-casts each float: truncation toward zero, then reduction mod 2^8. -/

def bandMin : List ℚ → ℚ
  | [] => 0
  | x :: xs => xs.foldl min x

def bandMax : List ℚ → ℚ
  | [] => 0
  | x :: xs => xs.foldl max x

/-- Truncation toward zero (the C float-to-integer cast). -/
def truncQ (x : ℚ) : ℤ := if 0 ≤ x then ⌊x⌋ else -⌊-x⌋

/-- `astype(np.uint8)` of one float value. -/
def toUInt8 (x : ℚ) : ℕ := ((truncQ x) % 256).toNat

/-- The per-band scaling branch of `process_sentinel` (lines 61–69):
`np.zeros_like` when the band is constant, otherwise
`((band - min) / (max - min) * 255).astype(np.uint8)`. -/
def scaleBand (band : List ℚ) : List ℕ :=
  let minVal := bandMin band
  let maxVal := bandMax band
  if maxVal = minVal then
    band.map fun _ => 0
  else
    band.map fun v => toUInt8 ((v - minVal) / (maxVal - minVal) * 255)

/-- The scaling formula as the spec words it: `round(...)` instead of the
code's truncating cast (refinement comparison for C4). -/
def scaleBandSpecRounded (band : List ℚ) : List ℕ :=
  let minVal := bandMin band
  let maxVal := bandMax band
  if maxVal = minVal then
    band.map fun _ => 0
  else
    band.map fun v => (round ((v - minVal) / (maxVal - minVal) * 255)).toNat

theorem foldl_min_le_init : ∀ (xs : List ℚ) (a : ℚ), xs.foldl min a ≤ a := by
  intro xs
  induction xs with
  | nil => intro a; simp
  | cons x xs ih =>
    intro a
    exact le_trans (ih (min a x)) (min_le_left a x)

theorem foldl_min_le_mem :
    ∀ (xs : List ℚ) (a v : ℚ), v ∈ xs → xs.foldl min a ≤ v := by
  intro xs
  induction xs with
  | nil => intro a v hv; simp at hv
  | cons x xs ih =>
    intro a v hv
    rcases List.mem_cons.mp hv with rfl | hv
    · exact le_trans (foldl_min_le_init xs (min a v)) (min_le_right a v)
    · exact ih (min a x) v hv

theorem le_foldl_max_init : ∀ (xs : List ℚ) (a : ℚ), a ≤ xs.foldl max a := by
  intro xs
  induction xs with
  | nil => intro a; simp
  | cons x xs ih =>
    intro a
    exact le_trans (le_max_left a x) (ih (max a x))

theorem le_foldl_max_mem :
    ∀ (xs : List ℚ) (a v : ℚ), v ∈ xs → v ≤ xs.foldl max a := by
  intro xs
  induction xs with
  | nil => intro a v hv; simp at hv
  | cons x xs ih =>
    intro a v hv
    rcases List.mem_cons.mp hv with rfl | hv
    · exact le_trans (le_max_right a v) (le_foldl_max_init xs (max a v))
    · exact ih (max a x) v hv

theorem bandMin_le_mem (band : List ℚ) (v : ℚ) (hv : v ∈ band) :
    bandMin band ≤ v := by
  cases band with
  | nil => simp at hv
  | cons x xs =>
    rcases List.mem_cons.mp hv with rfl | hv
    · exact foldl_min_le_init xs v
    · exact foldl_min_le_mem xs x v hv

theorem mem_le_bandMax (band : List ℚ) (v : ℚ) (hv : v ∈ band) :
    v ≤ bandMax band := by
  cases band with
  | nil => simp at hv
  | cons x xs =>
    rcases List.mem_cons.mp hv with rfl | hv
    · exact le_foldl_max_init xs v
    · exact le_foldl_max_mem xs x v hv

/-- C4 (amended): the scaled band is the all-zero band when the band's own
min and max coincide (no error is raised or propagated), and otherwise is
the pointwise `⌊(v - min) / (max - min) * 255⌋` — truncation toward zero of
the scaled value, not `round(...)` as the spec words it; every output value
fits in 0–255. -/
theorem scaleBand_characterization (band : List ℚ) :
    (bandMax band = bandMin band →
      scaleBand band = band.map fun _ => 0) ∧
    (bandMax band ≠ bandMin band →
      scaleBand band = band.map fun v =>
        (⌊(v - bandMin band) / (bandMax band - bandMin band) * 255⌋).toNat) ∧
    (∀ x ∈ scaleBand band, x ≤ 255) := by
  have hbound : ∀ v ∈ band, bandMax band ≠ bandMin band →
      0 ≤ (v - bandMin band) / (bandMax band - bandMin band) * 255 ∧
      (v - bandMin band) / (bandMax band - bandMin band) * 255 ≤ 255 := by
    intro v hv hne
    have hmin := bandMin_le_mem band v hv
    have hmax := mem_le_bandMax band v hv
    have hlt : bandMin band < bandMax band :=
      lt_of_le_of_ne (le_trans hmin hmax) (Ne.symm hne)
    have hpos : 0 < bandMax band - bandMin band := by linarith
    constructor
    · apply mul_nonneg _ (by norm_num)
      exact div_nonneg (by linarith) (le_of_lt hpos)
    · have hle1 : (v - bandMin band) / (bandMax band - bandMin band) ≤ 1 :=
        (div_le_one hpos).mpr (by linarith)
      nlinarith
  have hpoint : ∀ v ∈ band, bandMax band ≠ bandMin band →
      toUInt8 ((v - bandMin band) / (bandMax band - bandMin band) * 255) =
        (⌊(v - bandMin band) / (bandMax band - bandMin band) * 255⌋).toNat := by
    intro v hv hne
    obtain ⟨hx0, hx255⟩ := hbound v hv hne
    unfold toUInt8 truncQ
    rw [if_pos hx0]
    congr 1
    apply Int.emod_eq_of_lt (Int.floor_nonneg.mpr hx0)
    have h1 : ⌊(v - bandMin band) / (bandMax band - bandMin band) * 255⌋ ≤
        (255 : ℤ) := by
      have := Int.floor_le_floor hx255
      simpa using this
    omega
  refine ⟨?_, ?_, ?_⟩
  · intro hdeg
    unfold scaleBand
    rw [if_pos hdeg]
  · intro hne
    unfold scaleBand
    rw [if_neg hne]
    exact List.map_congr_left fun v hv => hpoint v hv hne
  · intro x hx
    unfold scaleBand at hx
    by_cases hne : bandMax band = bandMin band
    · rw [if_pos hne] at hx
      obtain ⟨v, _, rfl⟩ := List.mem_map.mp hx
      omega
    · rw [if_neg hne] at hx
      obtain ⟨v, hv, rfl⟩ := List.mem_map.mp hx
      rw [hpoint v hv hne]
      obtain ⟨hx0, hx255⟩ := hbound v hv hne
      have h1 : ⌊(v - bandMin band) / (bandMax band - bandMin band) * 255⌋ ≤
          (255 : ℤ) := by
        have := Int.floor_le_floor hx255
        simpa using this
      omega

/-- Counterexample for C4 as stated: on the band `[0, 1, 2]` (min 0, max 2)
the middle pixel scales to `(1 - 0) / (2 - 0) * 255 = 127.5`; the code's
`astype(np.uint8)` truncates it to 127 while the claimed `round(...)` gives
128, so the code disagrees with the claimed formula. -/
theorem scaleBand_round_counterexample :
    scaleBand [0, 1, 2] = [0, 127, 255] ∧
    scaleBandSpecRounded [0, 1, 2] = [0, 128, 255] ∧
    scaleBand [0, 1, 2] ≠ scaleBandSpecRounded [0, 1, 2] := by
  have hmin : bandMin [0, 1, 2] = 0 := by
    unfold bandMin
    norm_num [min_def]
  have hmax : bandMax [0, 1, 2] = 2 := by
    unfold bandMax
    norm_num [max_def]
  have hne : bandMax [0, 1, 2] ≠ bandMin [0, 1, 2] := by
    rw [hmin, hmax]; norm_num
  have h1 : scaleBand [0, 1, 2] = [0, 127, 255] := by
    unfold scaleBand
    rw [if_neg hne, hmin, hmax]
    unfold toUInt8 truncQ
    norm_num
    exact ⟨rfl, rfl⟩
  have h2 : scaleBandSpecRounded [0, 1, 2] = [0, 128, 255] := by
    unfold scaleBandSpecRounded
    rw [if_neg hne, hmin, hmax]
    norm_num
    rw [round_eq]
    norm_num
    exact ⟨rfl, rfl⟩
  refine ⟨h1, h2, ?_⟩
  rw [h1, h2]
  decide

/-- Witness for C4's amended theorem at the band `[3, 3, 3]` (degenerate,
all-zero output) and, through the non-degenerate branch, at `[0, 1, 2]`. -/
theorem scaleBand_characterization_witness :
    scaleBand [3, 3, 3] = [0, 0, 0] ∧
    (∀ x ∈ scaleBand [0, 1, 2], x ≤ 255) := by
  have hdeg : bandMax [3, 3, 3] = bandMin [3, 3, 3] := by
    unfold bandMin bandMax
    norm_num [min_def, max_def]
  have h1 := (scaleBand_characterization [3, 3, 3]).1 hdeg
  have h2 := (scaleBand_characterization [0, 1, 2]).2.2
  exact ⟨by rw [h1]; rfl, h2⟩

/-! ## Binarization (`src/data/preprocessing.py`, `convert_forest_to_binary`,
lines 222–245)

The single label band is a list of integer class codes
(`np.where(img == forest_value, 255, 0)`, then `astype(np.uint8)`, which is
the identity on the values 0 and 255 produced by `where`).  `ℤ` covers every
integer dtype the input raster may carry, and the uint8 output embeds. -/

def convert_forest_to_binary (img : List ℤ) (forestValue : ℤ) : List ℤ :=
  img.map fun p => if p = forestValue then 255 else 0

/-- Counterexample for C5 as stated ("for every foreground value v"): with
foreground value 100 on the one-pixel raster `[100]`, one application gives
`[255]` but a second application maps 255 (≠ 100) to 0, so applying twice
differs from applying once. -/
theorem convert_forest_to_binary_not_idempotent :
    convert_forest_to_binary (convert_forest_to_binary [100] 100) 100 = [0] ∧
    convert_forest_to_binary [100] 100 = [255] ∧
    convert_forest_to_binary (convert_forest_to_binary [100] 100) 100 ≠
      convert_forest_to_binary [100] 100 := by
  refine ⟨?_, ?_, ?_⟩ <;> decide

/-- C5 (amended): binarization is idempotent when the foreground value is
255 (re-binarizing a 0/255 mask with foreground 255 is the identity on it),
and also when the foreground value is neither 0 nor 255 and absent from the
raster; for other foreground values a second application need not agree with
the first (see the counterexample). -/
theorem convert_forest_to_binary_idempotent_cases (img : List ℤ) (v : ℤ)
    (h : v = 255 ∨ (v ≠ 0 ∧ v ≠ 255 ∧ v ∉ img)) :
    convert_forest_to_binary (convert_forest_to_binary img v) v =
      convert_forest_to_binary img v := by
  unfold convert_forest_to_binary
  rw [List.map_map]
  apply List.map_congr_left
  intro p hp
  rcases h with rfl | ⟨h0, h255, hnm⟩
  · by_cases hpv : p = 255 <;> simp [Function.comp, hpv]
  · have hpv : p ≠ v := fun he => hnm (he ▸ hp)
    simp [Function.comp, hpv, Ne.symm h0]

/-- Witness for C5's amended theorem: foreground value 255 over a raster
holding 0, 255 and another value. -/
theorem convert_forest_to_binary_idempotent_cases_witness :
    convert_forest_to_binary (convert_forest_to_binary [0, 255, 7] 255) 255 =
      convert_forest_to_binary [0, 255, 7] 255 :=
  convert_forest_to_binary_idempotent_cases [0, 255, 7] 255 (Or.inl rfl)

/-! ## Band-file resolution (`src/data/preprocessing.py`,
`process_sentinel` lines 15–24 and `process_sentinel_fast` lines 90–102)

The input folder is its list of filenames.  Python's `str.endswith` is
suffix-of over the character sequence.  Output I/O is abstracted to the list
of files a run writes: an `Except.error` result models the `ValueError`
(the spec's `MissingBandError`) raised before anything is written, so an
errored run writes nothing. -/

def strEndsWith (s p : String) : Bool := p.data.isSuffixOf s.data

def sentinelBands : List String := ["B02", "B03", "B04", "B08"]

def bandPattern (band : String) : String := "_" ++ band ++ "_10m.jp2"

/-- The dict assignment `band_paths[band] = path`: overwrite the entry for
`band` if present, else append it. -/
def insertBand : List (String × String) → String → String →
    List (String × String)
  | [], b, f => [(b, f)]
  | (b', f') :: rest, b, f =>
    if b' = b then (b, f) :: rest else (b', f') :: insertBand rest b f

/-- The file-resolution double loop shared by both variants: for each file,
the inner loop over `bands` breaks at the first band whose pattern the
filename ends with, recording the file under that band. -/
def findBandPaths (files : List String) : List (String × String) :=
  files.foldl (fun acc f =>
    match sentinelBands.find? (fun band => strEndsWith f (bandPattern band)) with
    | some band => insertBand acc band f
    | none => acc) []

/-- `process_sentinel` up to the write of its single output file:
`len(band_paths) != 4` raises before any processing or writing. -/
def process_sentinel (files : List String) (outputPath : String) :
    Except String (List String) :=
  let bandPaths := findBandPaths files
  if bandPaths.length ≠ 4 then
    Except.error "Missing one or more Sentinel-2 band files."
  else
    Except.ok [outputPath]

/-- `process_sentinel_fast` up to the write of its single output file: the
`any(v is None ...)` check is "some expected band has no entry". -/
def process_sentinel_fast (files : List String) (outputPath : String) :
    Except String (List String) :=
  if sentinelBands.any (fun band =>
      (findBandPaths files).all (fun bf => bf.1 ≠ band)) then
    Except.error "One or more required band files are missing."
  else
    Except.ok [outputPath]

theorem insertBand_mem :
    ∀ (acc : List (String × String)) (b f : String) (p : String × String),
      p ∈ insertBand acc b f → p ∈ acc ∨ p = (b, f) := by
  intro acc
  induction acc with
  | nil => intro b f p hp; simpa [insertBand] using hp
  | cons q rest ih =>
    intro b f p hp
    rcases q with ⟨b', f'⟩
    unfold insertBand at hp
    by_cases hb : b' = b
    · rw [if_pos hb] at hp
      rcases List.mem_cons.mp hp with rfl | hp
      · exact Or.inr rfl
      · exact Or.inl (List.mem_cons_of_mem _ hp)
    · rw [if_neg hb] at hp
      rcases List.mem_cons.mp hp with rfl | hp
      · exact Or.inl (List.mem_cons_self _ _)
      · rcases ih b f p hp with h | h
        · exact Or.inl (List.mem_cons_of_mem _ h)
        · exact Or.inr h

/-- Every resolved entry names an expected band via a file of the folder
that actually matches that band's pattern. -/
theorem findBandPaths_mem :
    ∀ (files : List String) (acc : List (String × String)) (p : String × String),
      p ∈ files.foldl (fun acc f =>
        match sentinelBands.find? (fun band => strEndsWith f (bandPattern band)) with
        | some band => insertBand acc band f
        | none => acc) acc →
      p ∈ acc ∨ (p.1 ∈ sentinelBands ∧ p.2 ∈ files ∧
        strEndsWith p.2 (bandPattern p.1) = true) := by
  intro files
  induction files with
  | nil => intro acc p hp; exact Or.inl hp
  | cons f fs ih =>
    intro acc p hp
    rcases hfind : sentinelBands.find?
        (fun band => strEndsWith f (bandPattern band)) with _ | band
    · simp only [List.foldl_cons, hfind] at hp
      rcases ih acc p hp with h | ⟨h1, h2, h3⟩
      · exact Or.inl h
      · exact Or.inr ⟨h1, List.mem_cons_of_mem _ h2, h3⟩
    · simp only [List.foldl_cons, hfind] at hp
      rcases ih (insertBand acc band f) p hp with h | ⟨h1, h2, h3⟩
      · rcases insertBand_mem acc band f p h with h' | rfl
        · exact Or.inl h'
        · refine Or.inr ⟨List.mem_of_find?_eq_some hfind,
            List.mem_cons_self _ _, ?_⟩
          have hps := List.find?_some hfind
          simpa using hps
      · exact Or.inr ⟨h1, List.mem_cons_of_mem _ h2, h3⟩

theorem insertBand_keys :
    ∀ (acc : List (String × String)) (b f : String),
      (insertBand acc b f).map Prod.fst =
        if b ∈ acc.map Prod.fst then acc.map Prod.fst
        else acc.map Prod.fst ++ [b] := by
  intro acc
  induction acc with
  | nil => intro b f; simp [insertBand]
  | cons q rest ih =>
    intro b f
    rcases q with ⟨b', f'⟩
    unfold insertBand
    by_cases hb : b' = b
    · subst hb
      simp
    · rw [if_neg hb]
      simp only [List.map_cons, ih b f, List.mem_cons]
      by_cases hmem : b ∈ rest.map Prod.fst
      · rw [if_pos hmem, if_pos (Or.inr hmem)]
      · rw [if_neg hmem, if_neg (by
          rintro (h | h)
          · exact hb h.symm
          · exact hmem h)]
        simp

theorem findBandPaths_keys_nodup :
    ∀ (files : List String) (acc : List (String × String)),
      (acc.map Prod.fst).Nodup →
      ((files.foldl (fun acc f =>
        match sentinelBands.find? (fun band => strEndsWith f (bandPattern band)) with
        | some band => insertBand acc band f
        | none => acc) acc).map Prod.fst).Nodup := by
  intro files
  induction files with
  | nil => intro acc h; exact h
  | cons f fs ih =>
    intro acc h
    rcases hfind : sentinelBands.find?
        (fun band => strEndsWith f (bandPattern band)) with _ | band
    · simp only [List.foldl_cons, hfind]
      exact ih acc h
    · simp only [List.foldl_cons, hfind]
      apply ih
      rw [insertBand_keys acc band f]
      by_cases hmem : band ∈ acc.map Prod.fst
      · rw [if_pos hmem]; exact h
      · rw [if_neg hmem]
        rw [List.nodup_append]
        refine ⟨h, List.nodup_singleton band, ?_⟩
        intro a ha hb
        rw [List.mem_singleton] at hb
        subst hb
        exact hmem ha

/-- C7: whenever some expected band (B02, B03, B04, B08) has no matching
file in the input folder, both alignment variants raise their
missing-band error and neither writes any output file; the witness below
instantiates the folder with B02, B03, B04 present and B08 absent. -/
theorem process_sentinel_missing_band_raises (files : List String)
    (out1 out2 : String)
    (h : ∃ b ∈ sentinelBands, ∀ f ∈ files,
      strEndsWith f (bandPattern b) = false) :
    process_sentinel files out1 =
      Except.error "Missing one or more Sentinel-2 band files." ∧
    process_sentinel_fast files out2 =
      Except.error "One or more required band files are missing." ∧
    (∀ written, process_sentinel files out1 ≠ Except.ok written) ∧
    (∀ written, process_sentinel_fast files out2 ≠ Except.ok written) := by
  obtain ⟨b, hbmem, hb⟩ := h
  have hkey : ∀ p ∈ findBandPaths files, p.1 ≠ b := by
    intro p hp hpb
    rcases findBandPaths_mem files [] p hp with h' | ⟨_, h2, h3⟩
    · simp at h'
    · rw [hpb] at h3
      rw [hb p.2 h2] at h3
      exact Bool.false_ne_true h3
  have herr1 : process_sentinel files out1 =
      Except.error "Missing one or more Sentinel-2 band files." := by
    unfold process_sentinel
    rw [if_pos ?_]
    have hnodup : ((findBandPaths files).map Prod.fst).Nodup :=
      findBandPaths_keys_nodup files [] (by simp)
    have hsub : (findBandPaths files).map Prod.fst ⊆ sentinelBands.erase b := by
      intro k hk
      obtain ⟨p, hp, rfl⟩ := List.mem_map.mp hk
      rcases findBandPaths_mem files [] p hp with h' | ⟨h1, _, _⟩
      · simp at h'
      · exact (List.mem_erase_of_ne (hkey p hp)).mpr h1
    have hlen : ((findBandPaths files).map Prod.fst).length ≤
        (sentinelBands.erase b).length :=
      (List.Nodup.subperm hnodup hsub).length_le
    have herase : (sentinelBands.erase b).length = 3 := by
      rw [List.length_erase_of_mem hbmem]
      rfl
    rw [List.length_map] at hlen
    omega
  have herr2 : process_sentinel_fast files out2 =
      Except.error "One or more required band files are missing." := by
    unfold process_sentinel_fast
    rw [if_pos ?_]
    rw [List.any_eq_true]
    refine ⟨b, hbmem, ?_⟩
    rw [List.all_eq_true]
    intro bf hbf
    simpa using hkey bf hbf
  refine ⟨herr1, herr2, ?_, ?_⟩
  · intro written hcontra
    rw [herr1] at hcontra
    exact Except.noConfusion hcontra
  · intro written hcontra
    rw [herr2] at hcontra
    exact Except.noConfusion hcontra

/-- Witness for C7: a folder with B02, B03 and B04 files but no B08 file. -/
theorem process_sentinel_missing_band_raises_witness :
    process_sentinel
      ["T22_20200701_B02_10m.jp2", "T22_20200701_B03_10m.jp2",
       "T22_20200701_B04_10m.jp2"] "sentinel.tif" =
      Except.error "Missing one or more Sentinel-2 band files." ∧
    process_sentinel_fast
      ["T22_20200701_B02_10m.jp2", "T22_20200701_B03_10m.jp2",
       "T22_20200701_B04_10m.jp2"] "sentinel.tif" =
      Except.error "One or more required band files are missing." := by
  have h := process_sentinel_missing_band_raises
    ["T22_20200701_B02_10m.jp2", "T22_20200701_B03_10m.jp2",
     "T22_20200701_B04_10m.jp2"] "sentinel.tif" "sentinel.tif"
    ⟨"B08", by decide, by decide⟩
  exact ⟨h.1, h.2.1⟩

/-! ## Combined loss (`src/model/loss.py`, `DiceBCELoss`, lines 4–17)

Tensors are flattened to lists of reals; one list is the whole batch (the
sums in the Dice term run over the entire batch, matching `.sum()` with no
dims).  `nn.BCEWithLogitsLoss` is the mean over elements of the
numerically-stabilized binary cross-entropy
`max(x, 0) - x*z + log(1 + exp(-|x|))`. -/

noncomputable def sigmoid (x : ℝ) : ℝ := 1 / (1 + Real.exp (-x))

noncomputable def bceWithLogits (preds targets : List ℝ) : ℝ :=
  ((preds.zip targets).map fun pt =>
    max pt.1 0 - pt.1 * pt.2 + Real.log (1 + Real.exp (-|pt.1|))).sum /
    preds.length

/-- `DiceBCELoss.forward` with weights `weight_bce`, `weight_dice`
(defaults 0.5/0.5): `preds` are logits. -/
noncomputable def diceBCELoss (weightBce weightDice : ℝ)
    (preds targets : List ℝ) : ℝ :=
  let bceLoss := bceWithLogits preds targets
  let predsSigmoid := preds.map sigmoid
  let smooth : ℝ := 1
  let intersection :=
    ((predsSigmoid.zip targets).map fun pt => pt.1 * pt.2).sum
  let diceLoss := 1 - (2 * intersection + smooth) /
    (predsSigmoid.sum + targets.sum + smooth)
  weightBce * bceLoss + weightDice * diceLoss

/-- C6 (amended): on a batch of `n ≥ 1` all-zero logits and all-zero
targets, `DiceBCELoss` (weights 0.5/0.5) raises no division by zero — the
smoothing constant keeps the Dice denominator at `n/2 + 1 > 0` — and returns
exactly `0.5·log 2 + 0.5·(1 − 1/(n/2 + 1))`, the claimed
`w_bce·BCE + w_dice·(1 − (2I+1)/(Sp+St+1))` with batch-wide sums; this value
is finite but at least 1/2, not close to 0. -/
theorem diceBCELoss_all_zero_batch (n : ℕ) (hn : 1 ≤ n) :
    diceBCELoss (1/2) (1/2) (List.replicate n 0) (List.replicate n 0) =
      1/2 * Real.log 2 + 1/2 * (1 - 1/((n : ℝ)/2 + 1)) ∧
    1/2 ≤ diceBCELoss (1/2) (1/2) (List.replicate n 0) (List.replicate n 0) := by
  have hn' : (1:ℝ) ≤ (n:ℝ) := by exact_mod_cast hn
  have hne : (n:ℝ) ≠ 0 := ne_of_gt (by linarith)
  have hden : (0:ℝ) < (n:ℝ)/2 + 1 := by linarith
  have hval : diceBCELoss (1/2) (1/2) (List.replicate n 0)
      (List.replicate n 0) =
      1/2 * Real.log 2 + 1/2 * (1 - 1/((n : ℝ)/2 + 1)) := by
    unfold diceBCELoss bceWithLogits sigmoid
    simp only [List.zip_replicate', List.map_replicate, List.sum_replicate,
      List.length_replicate, nsmul_eq_mul]
    norm_num [Real.exp_zero]
    have h1 : (n:ℝ) * Real.log 2 / (n:ℝ) = Real.log 2 := by
      field_simp
    have h2 : (n:ℝ) * (1/2) + 1 = (n:ℝ)/2 + 1 := by ring
    rw [h1, h2]
  refine ⟨hval, ?_⟩
  rw [hval]
  have hlog : (0.6931471803 : ℝ) < Real.log 2 := Real.log_two_gt_d9
  have hfrac : 1/((n:ℝ)/2 + 1) ≤ 2/3 := by
    have h32 : (3/2 : ℝ) ≤ (n:ℝ)/2 + 1 := by linarith
    have := one_div_le_one_div_of_le (by norm_num : (0:ℝ) < 3/2) h32
    linarith [this]
  linarith

/-- Counterexample for C6's "close to 0": already on the one-pixel all-zero
batch the loss is `log 2 / 2 + 1/6 ≈ 0.513`, at least 1/2 — a finite value,
but not close to 0 (the Dice term of an all-zero-logit batch is
`(n/2)/(n/2+1)`, which approaches 1, not 0). -/
theorem diceBCELoss_all_zero_batch_not_close_to_zero :
    diceBCELoss (1/2) (1/2) [(0:ℝ)] [(0:ℝ)] =
      1/2 * Real.log 2 + 1/2 * (1 - 1/(3/2)) ∧
    1/2 ≤ diceBCELoss (1/2) (1/2) [(0:ℝ)] [(0:ℝ)] := by
  have hval : diceBCELoss (1/2) (1/2) [(0:ℝ)] [(0:ℝ)] =
      1/2 * Real.log 2 + 1/2 * (1 - 1/(3/2)) := by
    unfold diceBCELoss bceWithLogits sigmoid
    norm_num [Real.exp_zero]
  refine ⟨hval, ?_⟩
  rw [hval]
  have hlog : (0.6931471803 : ℝ) < Real.log 2 := Real.log_two_gt_d9
  norm_num
  linarith

/-- Witness for C6's amended theorem at the two-pixel all-zero batch. -/
theorem diceBCELoss_all_zero_batch_witness :
    (1:ℕ) ≤ 2 ∧
    1/2 ≤ diceBCELoss (1/2) (1/2) (List.replicate 2 (0:ℝ))
      (List.replicate 2 0) :=
  ⟨by norm_num, (diceBCELoss_all_zero_batch 2 (by norm_num)).2⟩

/-! ## Dataset sample access (`src/data/dataset.py`,
`SatelliteSegmentationDataset.__getitem__`, lines 18–34)

numpy arrays are a shape plus row-major data (`ℚ` values).  The augmentation
is an externally supplied capability taking an image and a mask and
returning a transformed pair. -/

structure NDArray where
  shape : List Nat
  data : List ℚ
deriving Repr, DecidableEq

/-- `np.transpose(img, (1, 2, 0))`: channel-first `(C, H, W)` to
channel-last `(H, W, C)`; entry `(hh, ww, cc)` of the result is entry
`(cc, hh, ww)` of the input, both sides row-major. -/
def toHWC (a : NDArray) : NDArray :=
  match a.shape with
  | [c, h, w] =>
    { shape := [h, w, c],
      data := (List.range (h * w * c)).map fun n =>
        let cc := n % c
        let ww := n / c % w
        let hh := n / c / w
        a.data.getD ((cc * h + hh) * w + ww) 0 }
  | _ => a

/-- `__getitem__`: read the image and scale by 255, read the mask band and
threshold at strictly-positive, transpose the image to `(H, W, C)`; with a
transform, apply it and `unsqueeze(0)` the transformed mask (prepend a
channel dimension); without one, return the arrays as they are. -/
def getItem (img mask : NDArray)
    (transform : Option (NDArray → NDArray → NDArray × NDArray)) :
    NDArray × NDArray :=
  let imgScaled : NDArray :=
    { shape := img.shape, data := img.data.map fun v => v / 255 }
  let maskBin : NDArray :=
    { shape := mask.shape,
      data := mask.data.map fun v => if 0 < v then 1 else 0 }
  let imgT := toHWC imgScaled
  match transform with
  | some t =>
    let r := t imgT maskBin
    (r.1, { shape := 1 :: r.2.shape, data := r.2.data })
  | none => (imgT, maskBin)

theorem getD_mem_or_default (l : List ℚ) (n : Nat) (d : ℚ) :
    l.getD n d ∈ l ∨ l.getD n d = d := by
  by_cases h : n < l.length
  · left
    rw [List.getD_eq_getElem l d h]
    exact List.getElem_mem h
  · right
    exact List.getD_eq_default l d (by omega)

/-- C10: the shape of a sample depends on whether a transform was supplied.
Without one, the mask comes back 2-D `(H, W)` (thresholded to 0/1, no
unsqueeze) and the image comes back `(H, W, C)` with values normalized into
[0, 1] (no channel-first conversion); with a transform, the returned sample
is the transform applied to that untransformed sample, except that the mask
gains a leading channel dimension `(1, ...)` via unsqueeze. -/
theorem getItem_shapes_by_transform (img mask : NDArray) (c h w hm wm : Nat)
    (himg : img.shape = [c, h, w])
    (hmask : mask.shape = [hm, wm])
    (hraw : ∀ v ∈ img.data, 0 ≤ v ∧ v ≤ 255) :
    (getItem img mask none).1.shape = [h, w, c] ∧
    (getItem img mask none).2.shape = [hm, wm] ∧
    (∀ v ∈ (getItem img mask none).1.data, 0 ≤ v ∧ v ≤ 1) ∧
    (∀ v ∈ (getItem img mask none).2.data, v = 0 ∨ v = 1) ∧
    (∀ t, getItem img mask (some t) =
      ((t (getItem img mask none).1 (getItem img mask none).2).1,
       { shape := 1 ::
           (t (getItem img mask none).1 (getItem img mask none).2).2.shape,
         data :=
           (t (getItem img mask none).1 (getItem img mask none).2).2.data })) := by
  refine ⟨?_, ?_, ?_, ?_, ?_⟩
  · show (toHWC { shape := img.shape,
                  data := img.data.map fun v => v / 255 }).shape = [h, w, c]
    unfold toHWC
    simp only [himg]
  · exact hmask
  · intro v hv
    have hv' : v ∈ (toHWC { shape := img.shape,
                            data := img.data.map fun x => x / 255 }).data := hv
    unfold toHWC at hv'
    simp only [himg] at hv'
    obtain ⟨n, _, rfl⟩ := List.mem_map.mp hv'
    rcases getD_mem_or_default (img.data.map fun x => x / 255) _ 0
        with hmem | hdef
    · obtain ⟨x, hx, hxe⟩ := List.mem_map.mp hmem
      obtain ⟨h0, h255⟩ := hraw x hx
      rw [← hxe]
      constructor
      · positivity
      · rw [div_le_one (by norm_num)]
        linarith
    · rw [hdef]
      norm_num
  · intro v hv
    obtain ⟨x, _, rfl⟩ := List.mem_map.mp hv
    by_cases hx : 0 < x
    · right; rw [if_pos hx]
    · left; rw [if_neg hx]
  · intro t
    rfl

/-- Witness for C10 at a 1-band 2×2 image with values 0, 51, 102, 255 and a
2×2 mask with values 0, 5, 0, 7; the transform branch is exercised with the
identity augmentation. -/
theorem getItem_shapes_by_transform_witness :
    (getItem ⟨[1, 2, 2], [0, 51, 102, 255]⟩ ⟨[2, 2], [0, 5, 0, 7]⟩
      none).1.shape = [2, 2, 1] ∧
    (getItem ⟨[1, 2, 2], [0, 51, 102, 255]⟩ ⟨[2, 2], [0, 5, 0, 7]⟩
      none).2.shape = [2, 2] ∧
    (getItem ⟨[1, 2, 2], [0, 51, 102, 255]⟩ ⟨[2, 2], [0, 5, 0, 7]⟩
      (some fun a b => (a, b))).2.shape = [1, 2, 2] := by
  have h := getItem_shapes_by_transform
    ⟨[1, 2, 2], [0, 51, 102, 255]⟩ ⟨[2, 2], [0, 5, 0, 7]⟩ 1 2 2 2 2
    rfl rfl (by
      intro v hv
      simp only [List.mem_cons, List.not_mem_nil, or_false] at hv
      rcases hv with rfl | rfl | rfl | rfl <;> norm_num)
  refine ⟨h.1, h.2.1, ?_⟩
  rw [h.2.2.2.2 (fun a b => (a, b))]
  rw [h.2.1]
